import Mathlib

/- Verification development for the history-and-integration engine of a
delay-differential-equation integrator.  The repository sources contain only
the example driver (examples/mackey_glass.py); the engine itself is modelled
from the specification, over rational scalars, with machine reals replaced by
exact rationals and the step-size exponent kept over the reals. -/

/-- Modelled from the spec: the error taxonomy of §7.  The integrator core is
missing from the sources, so the error conditions are taken verbatim from the
specification. -/
inductive DDEError where
  | OrderViolation
  | FutureQueryError
  | DelayTooShortError
  | StepSizeUnderflowError
  | BackwardIntegrationError
  deriving DecidableEq

instance {e a : Type} [DecidableEq e] [DecidableEq a] : DecidableEq (Except e a) :=
  fun x y =>
    match x, y with
    | Except.ok v, Except.ok w =>
      if h : v = w then Decidable.isTrue (congrArg Except.ok h)
      else Decidable.isFalse (fun hc => h (Except.ok.inj hc))
    | Except.error v, Except.error w =>
      if h : v = w then Decidable.isTrue (congrArg Except.error h)
      else Decidable.isFalse (fun hc => h (Except.error.inj hc))
    | Except.ok _, Except.error _ => Decidable.isFalse (fun hc => Except.noConfusion hc)
    | Except.error _, Except.ok _ => Decidable.isFalse (fun hc => Except.noConfusion hc)

/-- Modelled from the spec: an anchor of the History Store (§3): a time, a
state vector and a state-derivative vector. -/
structure Anchor where
  time : ℚ
  state : List ℚ
  diff : List ℚ
  deriving DecidableEq

/-- Modelled from the spec: the History Store ordering invariant (§3):
anchors are sorted by strictly increasing time. -/
def timeOrdered (hs : List Anchor) : Prop :=
  List.Chain' (fun a b => a.time < b.time) hs

/-- Executable check of the History Store ordering invariant. -/
def timeOrderedB : List Anchor → Bool
  | a :: b :: rest => (decide (a.time < b.time)) && timeOrderedB (b :: rest)
  | _ => true

instance instDecTimeOrdered : (hs : List Anchor) → Decidable (timeOrdered hs) :=
  fun hs =>
    decidable_of_iff (timeOrderedB hs = true) (by
      induction hs with
      | nil => simp [timeOrderedB, timeOrdered]
      | cons a xs ih =>
        cases xs with
        | nil => simp [timeOrderedB, timeOrdered]
        | cons b rest =>
          simp only [timeOrderedB, Bool.and_eq_true, decide_eq_true_eq] at ih ⊢
          rw [ih]
          unfold timeOrdered
          rw [List.chain'_cons])

/-- Modelled from the spec: well-formedness of an anchor for dimension n: the
state and derivative vectors both have length n. -/
def wfDim (n : ℕ) (a : Anchor) : Prop :=
  a.state.length = n ∧ a.diff.length = n

instance (n : ℕ) (a : Anchor) : Decidable (wfDim n a) :=
  inferInstanceAs (Decidable (a.state.length = n ∧ a.diff.length = n))

/-- Modelled from the spec: History Store append (§4.1); fails with
`OrderViolation` if the new anchor's time is not strictly greater than the
last stored anchor's time. -/
def appendAnchor (hs : List Anchor) (a : Anchor) : Except DDEError (List Anchor) :=
  match (hs.map Anchor.time).getLast? with
  | none => Except.ok (hs ++ [a])
  | some tl =>
    if tl < a.time then Except.ok (hs ++ [a]) else Except.error DDEError.OrderViolation

/-- Modelled from the spec: a sequence of History Store appends (past seeding
calls followed by accepted-step commits, §4.1). -/
def appendAll (hs : List Anchor) : List Anchor → Except DDEError (List Anchor)
  | [] => Except.ok hs
  | a :: rest =>
    match appendAnchor hs a with
    | Except.ok hs2 => appendAll hs2 rest
    | Except.error e => Except.error e

/-- Modelled from the spec: scalar cubic Hermite interpolation (§4.2) between
the data (t0, y0, d0) and (t1, y1, d1), evaluated at time t. -/
def hermiteValue (t0 t1 y0 d0 y1 d1 t : ℚ) : ℚ :=
  let th := (t - t0) / (t1 - t0)
  (2 * th ^ 3 - 3 * th ^ 2 + 1) * y0 + (th ^ 3 - 2 * th ^ 2 + th) * (t1 - t0) * d0
    + (-2 * th ^ 3 + 3 * th ^ 2) * y1 + (th ^ 3 - th ^ 2) * (t1 - t0) * d1

/-- Modelled from the spec: time derivative of the scalar cubic Hermite
interpolant of §4.2, evaluated at time t. -/
def hermiteDiff (t0 t1 y0 d0 y1 d1 t : ℚ) : ℚ :=
  let th := (t - t0) / (t1 - t0)
  ((6 * th ^ 2 - 6 * th) * y0 + (-6 * th ^ 2 + 6 * th) * y1) / (t1 - t0)
    + (3 * th ^ 2 - 4 * th + 1) * d0 + (3 * th ^ 2 - 2 * th) * d1

/-- Modelled from the spec: componentwise cubic Hermite interpolation of the
state vectors (§4.2), recursing over the four coordinate lists. -/
def hermiteVecAux (t0 t1 t : ℚ) : List ℚ → List ℚ → List ℚ → List ℚ → List ℚ
  | y0 :: ys0, d0 :: ds0, y1 :: ys1, d1 :: ds1 =>
    hermiteValue t0 t1 y0 d0 y1 d1 t :: hermiteVecAux t0 t1 t ys0 ds0 ys1 ds1
  | _, _, _, _ => []

/-- Modelled from the spec: componentwise time derivative of the cubic Hermite
interpolant (§4.2). -/
def hermiteDiffVecAux (t0 t1 t : ℚ) : List ℚ → List ℚ → List ℚ → List ℚ → List ℚ
  | y0 :: ys0, d0 :: ds0, y1 :: ys1, d1 :: ds1 =>
    hermiteDiff t0 t1 y0 d0 y1 d1 t :: hermiteDiffVecAux t0 t1 t ys0 ds0 ys1 ds1
  | _, _, _, _ => []

/-- Modelled from the spec: the interpolated state between the two bracketing
anchors lo and hi, at query time t (§4.2). -/
def hermiteVec (lo hi : Anchor) (t : ℚ) : List ℚ :=
  hermiteVecAux lo.time hi.time t lo.state lo.diff hi.state hi.diff

/-- Modelled from the spec: the interpolated state derivative between the two
bracketing anchors lo and hi, at query time t (§4.2). -/
def hermiteDiffVec (lo hi : Anchor) (t : ℚ) : List ℚ :=
  hermiteDiffVecAux lo.time hi.time t lo.state lo.diff hi.state hi.diff

/-- Modelled from the spec: the forward bracket scan of `query_bracket`
(§4.1): walk the anchor list and interpolate in the first bracket whose upper
anchor is not before the query time. -/
def interpScan : List Anchor → ℚ → Except DDEError (List ℚ)
  | a :: b :: rest, t =>
    if t ≤ b.time then Except.ok (hermiteVec a b t) else interpScan (b :: rest) t
  | _, _ => Except.error DDEError.FutureQueryError

/-- Modelled from the spec: delayed-state lookup (§4.1, §4.2): queries
strictly after the last anchor fail with `FutureQueryError`; queries before
the first anchor extrapolate (constant from a single anchor, Hermite from the
two earliest anchors otherwise); interior queries interpolate in the
bracketing pair. -/
def lookupState (hs : List Anchor) (t : ℚ) : Except DDEError (List ℚ) :=
  match (hs.map Anchor.time).getLast? with
  | none => Except.error DDEError.FutureQueryError
  | some tl =>
    if tl < t then Except.error DDEError.FutureQueryError
    else
      match hs with
      | [] => Except.error DDEError.FutureQueryError
      | [a] => Except.ok a.state
      | a :: b :: rest =>
        if t < a.time then Except.ok (hermiteVec a b t)
        else interpScan (a :: b :: rest) t

/-- Modelled from the spec: the Step Controller configuration (§3, §4.4):
error tolerances, safety factor, growth and shrink bounds, and the order of
the embedded Runge-Kutta scheme. -/
structure StepConfig where
  atol : ℚ
  rtol : ℚ
  safety : ℚ
  maxGrowth : ℚ
  minShrink : ℚ
  order : ℕ
  deriving DecidableEq

/-- Modelled from the spec: the data produced by the Runge-Kutta stage
evaluations of one trial step (§4.4 step 1): the higher-order solution at
time+h, its derivative there, and the embedded error estimate.  The stage
computation itself invokes the opaque RHS Evaluator (§4.3) and is therefore
kept abstract. -/
structure TrialData where
  ySol : List ℚ
  yDiff : List ℚ
  errEst : List ℚ
  deriving DecidableEq

/-- Modelled from the spec: the scalar error norm of §4.4 step 2:
the maximum over components of |est_i| / (atol + rtol * max |y_i| |y_i+proposed|). -/
def errorNorm (atol rtol : ℚ) : List ℚ → List ℚ → List ℚ → ℚ
  | e :: es, y :: ys, z :: zs =>
    max (|e| / (atol + rtol * max |y| |z|)) (errorNorm atol rtol es ys zs)
  | _, _, _ => 0

/-- Modelled from the spec: the outcome of one accept/reject decision of the
Step Controller (§4.4 steps 3-5): whether the step was accepted, the
resulting History Store, and the resulting current time. -/
structure StepOutcome where
  accepted : Bool
  history : List Anchor
  time : ℚ
  deriving DecidableEq

/-- Modelled from the spec: the accept/reject decision and commit of the Step
Controller (§4.4 steps 2-5): accept exactly when the error norm is at most 1;
on acceptance commit one new anchor at time+h carrying the higher-order
solution and its derivative; on rejection leave everything unchanged. -/
def controllerStep (cfg : StepConfig) (hist : List Anchor) (cur : Anchor) (h : ℚ)
    (td : TrialData) : StepOutcome :=
  if errorNorm cfg.atol cfg.rtol td.errEst cur.state td.ySol ≤ 1 then
    { accepted := true
      history := hist ++ [{ time := cur.time + h, state := td.ySol, diff := td.yDiff }]
      time := cur.time + h }
  else
    { accepted := false, history := hist, time := cur.time }

/-- Modelled from the spec: the Step Controller as seen by the Integrator
Facade; step rejection is normal control flow, so the controller never
surfaces an error to the caller (§7). -/
def controllerStepE (cfg : StepConfig) (hist : List Anchor) (cur : Anchor) (h : ℚ)
    (td : TrialData) : Except DDEError StepOutcome :=
  Except.ok (controllerStep cfg hist cur h td)

/-- Modelled from the spec: the next proposed step size of §4.4 steps 3-4:
h * min(max_growth, safety * norm^(-1/order)) on acceptance and
h * max(min_shrink, safety * norm^(-1/order)) on rejection, over the reals
because of the fractional power. -/
noncomputable def nextStepSize (cfg : StepConfig) (h norm : ℚ) : ℝ :=
  if norm ≤ 1 then
    (h : ℝ) * min (cfg.maxGrowth : ℝ)
      ((cfg.safety : ℝ) * (norm : ℝ) ^ (-(1 : ℝ) / (cfg.order : ℝ)))
  else
    (h : ℝ) * max (cfg.minShrink : ℝ)
      ((cfg.safety : ℝ) * (norm : ℝ) ^ (-(1 : ℝ) / (cfg.order : ℝ)))

/-- Modelled from the spec: the mutable Integration State of the Integrator
Facade (§3): the dimension, the History Store, the current time and the
currently proposed step size. -/
structure IntState where
  dim : ℕ
  history : List Anchor
  time : ℚ
  stepsize : ℚ
  deriving DecidableEq

/-- Modelled from the spec: the read-only current-time accessor of the
Integrator Facade (§4.6), the `DDE.t` of the example driver. -/
def currentTime (s : IntState) : ℚ :=
  s.time

/-- Modelled from the spec: the Integration State invariant: a nonempty
History Store of well-formed anchors sorted by strictly increasing time,
whose last anchor sits exactly at the current integration time. -/
def IntInv (s : IntState) : Prop :=
  s.history ≠ [] ∧ timeOrdered s.history ∧ (∀ a ∈ s.history, wfDim s.dim a) ∧
    (s.history.map Anchor.time).getLast? = some s.time

instance (s : IntState) : Decidable (IntInv s) :=
  inferInstanceAs (Decidable (s.history ≠ [] ∧ timeOrdered s.history ∧
    (∀ a ∈ s.history, wfDim s.dim a) ∧
    (s.history.map Anchor.time).getLast? = some s.time))

/-- Modelled from the spec: the driving loop of `integrate` (§4.6):
repeatedly invoke the adaptive step of §4.4 (abstracted as `doStep`, since
each step consults the opaque RHS Evaluator) until the integration time
reaches the target; the fuel bounds the number of steps. -/
def integrateLoop (doStep : IntState → IntState) (target : ℚ) : ℕ → IntState → IntState
  | 0, s => s
  | fuel + 1, s =>
    if target ≤ s.time then s else integrateLoop doStep target fuel (doStep s)

/-- Modelled from the spec: `integrate(target_time)` of the Integrator Facade
(§4.6): fail with `BackwardIntegrationError` (leaving the state unchanged)
if the target precedes the current time; otherwise step until the current
time reaches the target and return the interpolated state exactly at the
target time, together with the new Integration State. -/
def integrate (doStep : IntState → IntState) (fuel : ℕ) (s : IntState) (target : ℚ) :
    Except DDEError (List ℚ) × IntState :=
  if target < s.time then (Except.error DDEError.BackwardIntegrationError, s)
  else
    let s2 := integrateLoop doStep target fuel s
    (lookupState s2.history target, s2)

/-- Modelled from the spec: seeding the past (§4.6 `add_past_point` calls made
before any forward step): append every seed anchor through the History Store
and start the integration at the time of the youngest (last-appended) anchor,
with initial proposed step size h0. -/
def addPastPoints (n : ℕ) (h0 : ℚ) (pts : List Anchor) : Except DDEError IntState :=
  match appendAll [] pts with
  | Except.error e => Except.error e
  | Except.ok hs =>
    match (hs.map Anchor.time).getLast? with
    | none => Except.error DDEError.OrderViolation
    | some tl => Except.ok { dim := n, history := hs, time := tl, stepsize := h0 }

/-- Demonstration stepper used to exercise the facade theorems on concrete
inputs: each invocation accepts one unit step, committing a zero state. -/
def demoStep (u : IntState) : IntState :=
  { dim := u.dim
    history :=
      u.history ++
        [{ time := u.time + 1
           state := List.replicate u.dim 0
           diff := List.replicate u.dim 0 }]
    time := u.time + 1
    stepsize := u.stepsize }

/-- Demonstration Integration State for the facade theorems: the Mackey-Glass
seeding of the example driver (two unit anchors at times -1 and 0). -/
def demoState : IntState :=
  { dim := 1
    history := [{ time := -1, state := [1], diff := [0] },
      { time := 0, state := [1], diff := [0] }]
    time := 0
    stepsize := 1 }


/-- Helper: a successful History Store append produces exactly the old store
with the new anchor at the end. -/
theorem appendAnchor_ok_eq {hs hs2 : List Anchor} {a : Anchor}
    (h : appendAnchor hs a = Except.ok hs2) : hs2 = hs ++ [a] := by
  unfold appendAnchor at h
  cases hl : (hs.map Anchor.time).getLast? with
  | none => rw [hl] at h; simp only [Except.ok.injEq] at h; exact h.symm
  | some tl =>
    rw [hl] at h
    by_cases hlt : tl < a.time
    · simp only [hlt, if_true, Except.ok.injEq] at h; exact h.symm
    · simp only [hlt, if_false] at h; cases h

/-- Helper: a successful History Store append preserves the strict time
ordering. -/
theorem appendAnchor_sorted {hs hs2 : List Anchor} {a : Anchor}
    (hord : timeOrdered hs) (h : appendAnchor hs a = Except.ok hs2) :
    timeOrdered hs2 := by
  rw [appendAnchor_ok_eq h]
  unfold appendAnchor at h
  cases hl : (hs.map Anchor.time).getLast? with
  | none =>
    have hnil : hs = [] := by
      rw [List.getLast?_map] at hl
      cases hs with
      | nil => rfl
      | cons x xs => simp [List.getLast?_eq_none_iff] at hl
    subst hnil
    exact List.chain'_singleton a
  | some tl =>
    rw [hl] at h
    by_cases hlt : tl < a.time
    · refine List.Chain'.append hord (List.chain'_singleton a) ?_
      intro x hx y hy
      rw [List.getLast?_map] at hl
      obtain ⟨la, hla, hlat⟩ : ∃ la, hs.getLast? = some la ∧ la.time = tl := by
        cases hget : hs.getLast? <;> rw [hget] at hl <;> simp at hl
        exact ⟨_, rfl, hl⟩
      rw [hla] at hx
      simp only [Option.mem_def, Option.some.injEq] at hx
      simp only [List.head?_cons, Option.mem_def, Option.some.injEq] at hy
      subst hx; subst hy; rw [hlat]; exact hlt
    · simp only [hlt, if_false] at h; cases h

/-- Helper: a History Store append whose anchor time does not exceed the last
stored time fails with `OrderViolation`. -/
theorem appendAnchor_stale {hs : List Anchor} {a : Anchor} {tl : ℚ}
    (hl : (hs.map Anchor.time).getLast? = some tl) (hle : a.time ≤ tl) :
    appendAnchor hs a = Except.error DDEError.OrderViolation := by
  unfold appendAnchor
  rw [hl]
  simp only [not_lt.mpr hle, if_false]

/-- Helper: a successful sequence of appends produces the old store followed
by the appended anchors in order. -/
theorem appendAll_ok_eq : ∀ {pts hs0 hs : List Anchor},
    appendAll hs0 pts = Except.ok hs → hs = hs0 ++ pts := by
  intro pts
  induction pts with
  | nil =>
    intro hs0 hs h
    simp only [appendAll, Except.ok.injEq] at h
    simp [h]
  | cons a rest ih =>
    intro hs0 hs h
    unfold appendAll at h
    cases hap : appendAnchor hs0 a with
    | ok hs1 =>
      rw [hap] at h
      rw [ih h, appendAnchor_ok_eq hap]
      simp
    | error e => rw [hap] at h; cases h

/-- Helper: a successful sequence of appends preserves the strict time
ordering of the store. -/
theorem appendAll_sorted : ∀ {pts hs0 hs : List Anchor},
    timeOrdered hs0 → appendAll hs0 pts = Except.ok hs → timeOrdered hs := by
  intro pts
  induction pts with
  | nil =>
    intro hs0 hs hord h
    simp only [appendAll, Except.ok.injEq] at h
    rw [← h]; exact hord
  | cons a rest ih =>
    intro hs0 hs hord h
    unfold appendAll at h
    cases hap : appendAnchor hs0 a with
    | ok hs1 =>
      rw [hap] at h
      exact ih (appendAnchor_sorted hord hap) h
    | error e => rw [hap] at h; cases h

/-- Helper: in a strictly time-ordered store, every anchor's time is at most
the last stored time. -/
theorem mem_time_le_last : ∀ {hs : List Anchor} {a : Anchor} {tl : ℚ},
    timeOrdered hs → a ∈ hs → (hs.map Anchor.time).getLast? = some tl →
    a.time ≤ tl := by
  intro hs
  induction hs with
  | nil => intro a tl _ ha _; cases ha
  | cons x xs ih =>
    intro a tl hord ha hl
    cases xs with
    | nil =>
      simp only [List.map_cons, List.map_nil, List.getLast?_singleton,
        Option.some.injEq] at hl
      rcases List.mem_singleton.mp ha with rfl
      rw [hl]
    | cons y ys =>
      rw [List.map_cons, List.map_cons, List.getLast?_cons_cons] at hl
      have hyl : ((y :: ys).map Anchor.time).getLast? = some tl := by
        rw [List.map_cons]; exact hl
      have hxy : x.time < y.time := (List.chain'_cons.mp hord).1
      have htail : timeOrdered (y :: ys) := (List.chain'_cons.mp hord).2
      rcases List.mem_cons.mp ha with rfl | hmem
      · exact le_of_lt (lt_of_lt_of_le hxy (ih htail (List.mem_cons_self y ys) hyl))
      · exact ih htail hmem hyl

/-- Helper: the scalar Hermite interpolant reproduces the left endpoint value
at the left endpoint time. -/
theorem hermiteValue_left (t0 t1 y0 d0 y1 d1 : ℚ) :
    hermiteValue t0 t1 y0 d0 y1 d1 t0 = y0 := by
  simp only [hermiteValue, sub_self, zero_div]
  ring

/-- Helper: the scalar Hermite interpolant reproduces the right endpoint value
at the right endpoint time, provided the endpoints are distinct. -/
theorem hermiteValue_right (t0 t1 y0 d0 y1 d1 : ℚ) (hne : t0 ≠ t1) :
    hermiteValue t0 t1 y0 d0 y1 d1 t1 = y1 := by
  have hd : t1 - t0 ≠ 0 := sub_ne_zero.mpr (Ne.symm hne)
  simp only [hermiteValue, div_self hd]
  ring

/-- Helper: the scalar Hermite interpolant's derivative reproduces the left
endpoint derivative at the left endpoint time. -/
theorem hermiteDiff_left (t0 t1 y0 d0 y1 d1 : ℚ) :
    hermiteDiff t0 t1 y0 d0 y1 d1 t0 = d0 := by
  simp only [hermiteDiff, sub_self, zero_div]
  ring

/-- Helper: the scalar Hermite interpolant's derivative reproduces the right
endpoint derivative at the right endpoint time, provided the endpoints are
distinct. -/
theorem hermiteDiff_right (t0 t1 y0 d0 y1 d1 : ℚ) (hne : t0 ≠ t1) :
    hermiteDiff t0 t1 y0 d0 y1 d1 t1 = d1 := by
  have hd : t1 - t0 ≠ 0 := sub_ne_zero.mpr (Ne.symm hne)
  simp only [hermiteDiff, div_self hd]
  field_simp
  ring

/-- Helper: with equal endpoint values and zero endpoint derivatives the
scalar Hermite interpolant is the constant function, at every query time. -/
theorem hermiteValue_const (t0 t1 c t : ℚ) :
    hermiteValue t0 t1 c 0 c 0 t = c := by
  simp only [hermiteValue]
  ring

/-- Helper: the componentwise Hermite interpolant reproduces the left list of
values at the left endpoint time whenever the four lists have equal length. -/
theorem hermiteVecAux_left (t0 t1 : ℚ) : ∀ (ys0 ds0 ys1 ds1 : List ℚ),
    ds0.length = ys0.length → ys1.length = ys0.length → ds1.length = ys0.length →
    hermiteVecAux t0 t1 t0 ys0 ds0 ys1 ds1 = ys0 := by
  intro ys0
  induction ys0 with
  | nil =>
    intro ds0 ys1 ds1 h1 h2 h3
    rw [List.length_nil, List.length_eq_zero] at h1 h2 h3
    subst h1; subst h2; subst h3; rfl
  | cons y ys ih =>
    intro ds0 ys1 ds1 h1 h2 h3
    cases ds0 with
    | nil => cases h1
    | cons d ds =>
      cases ys1 with
      | nil => cases h2
      | cons z zs =>
        cases ds1 with
        | nil => cases h3
        | cons w ws =>
          simp only [List.length_cons, Nat.succ.injEq] at h1 h2 h3
          simp only [hermiteVecAux, hermiteValue_left, List.cons.injEq]
          exact ⟨trivial, ih ds zs ws h1 h2 h3⟩

/-- Helper: the componentwise Hermite interpolant reproduces the right list of
values at the right endpoint time, for distinct endpoint times and equal
lengths. -/
theorem hermiteVecAux_right (t0 t1 : ℚ) (hne : t0 ≠ t1) :
    ∀ (ys0 ds0 ys1 ds1 : List ℚ),
    ds0.length = ys0.length → ys1.length = ys0.length → ds1.length = ys0.length →
    hermiteVecAux t0 t1 t1 ys0 ds0 ys1 ds1 = ys1 := by
  intro ys0
  induction ys0 with
  | nil =>
    intro ds0 ys1 ds1 h1 h2 h3
    rw [List.length_nil, List.length_eq_zero] at h1 h2 h3
    subst h1; subst h2; subst h3; rfl
  | cons y ys ih =>
    intro ds0 ys1 ds1 h1 h2 h3
    cases ds0 with
    | nil => cases h1
    | cons d ds =>
      cases ys1 with
      | nil => cases h2
      | cons z zs =>
        cases ds1 with
        | nil => cases h3
        | cons w ws =>
          simp only [List.length_cons, Nat.succ.injEq] at h1 h2 h3
          simp only [hermiteVecAux, hermiteValue_right _ _ _ _ _ _ hne,
            List.cons.injEq]
          exact ⟨trivial, ih ds zs ws h1 h2 h3⟩

/-- Helper: the componentwise Hermite derivative reproduces the left list of
derivatives at the left endpoint time whenever the four lists have equal
length. -/
theorem hermiteDiffVecAux_left (t0 t1 : ℚ) : ∀ (ys0 ds0 ys1 ds1 : List ℚ),
    ds0.length = ys0.length → ys1.length = ys0.length → ds1.length = ys0.length →
    hermiteDiffVecAux t0 t1 t0 ys0 ds0 ys1 ds1 = ds0 := by
  intro ys0
  induction ys0 with
  | nil =>
    intro ds0 ys1 ds1 h1 h2 h3
    rw [List.length_nil, List.length_eq_zero] at h1 h2 h3
    subst h1; subst h2; subst h3; rfl
  | cons y ys ih =>
    intro ds0 ys1 ds1 h1 h2 h3
    cases ds0 with
    | nil => cases h1
    | cons d ds =>
      cases ys1 with
      | nil => cases h2
      | cons z zs =>
        cases ds1 with
        | nil => cases h3
        | cons w ws =>
          simp only [List.length_cons, Nat.succ.injEq] at h1 h2 h3
          simp only [hermiteDiffVecAux, hermiteDiff_left, List.cons.injEq]
          exact ⟨trivial, ih ds zs ws h1 h2 h3⟩

/-- Helper: the componentwise Hermite derivative reproduces the right list of
derivatives at the right endpoint time, for distinct endpoint times and equal
lengths. -/
theorem hermiteDiffVecAux_right (t0 t1 : ℚ) (hne : t0 ≠ t1) :
    ∀ (ys0 ds0 ys1 ds1 : List ℚ),
    ds0.length = ys0.length → ys1.length = ys0.length → ds1.length = ys0.length →
    hermiteDiffVecAux t0 t1 t1 ys0 ds0 ys1 ds1 = ds1 := by
  intro ys0
  induction ys0 with
  | nil =>
    intro ds0 ys1 ds1 h1 h2 h3
    rw [List.length_nil, List.length_eq_zero] at h1 h2 h3
    subst h1; subst h2; subst h3; rfl
  | cons y ys ih =>
    intro ds0 ys1 ds1 h1 h2 h3
    cases ds0 with
    | nil => cases h1
    | cons d ds =>
      cases ys1 with
      | nil => cases h2
      | cons z zs =>
        cases ds1 with
        | nil => cases h3
        | cons w ws =>
          simp only [List.length_cons, Nat.succ.injEq] at h1 h2 h3
          simp only [hermiteDiffVecAux, hermiteDiff_right _ _ _ _ _ _ hne,
            List.cons.injEq]
          exact ⟨trivial, ih ds zs ws h1 h2 h3⟩

/-- Helper: with equal endpoint state lists and all-zero endpoint derivative
lists the componentwise Hermite interpolant is constant at every query time. -/
theorem hermiteVecAux_const (t0 t1 t : ℚ) : ∀ (ys : List ℚ),
    hermiteVecAux t0 t1 t ys (List.replicate ys.length 0) ys
      (List.replicate ys.length 0) = ys := by
  intro ys
  induction ys with
  | nil => rfl
  | cons y ys ih =>
    rw [List.length_cons, List.replicate_succ]
    simp only [hermiteVecAux, hermiteValue_const, List.cons.injEq]
    exact ⟨trivial, ih⟩

/-- Helper: for a query time between the head anchor's time and the last
stored time, the bracket scan finds a consecutive bracketing pair and
interpolates in it. -/
theorem interpScan_bracket : ∀ (rest : List Anchor) (a b : Anchor) (t tl : ℚ),
    a.time ≤ t → ((a :: b :: rest).map Anchor.time).getLast? = some tl → t ≤ tl →
    ∃ l1 lo hi l2, a :: b :: rest = l1 ++ lo :: hi :: l2 ∧ lo.time ≤ t ∧ t ≤ hi.time ∧
      interpScan (a :: b :: rest) t = Except.ok (hermiteVec lo hi t) := by
  intro rest
  induction rest with
  | nil =>
    intro a b t tl hat hl htl
    simp only [List.map_cons, List.map_nil, List.getLast?_cons_cons,
      List.getLast?_singleton, Option.some.injEq] at hl
    subst hl
    refine ⟨[], a, b, [], rfl, hat, htl, ?_⟩
    simp only [interpScan]
    rw [if_pos htl]
  | cons c rest2 ih =>
    intro a b t tl hat hl htl
    by_cases hb : t ≤ b.time
    · refine ⟨[], a, b, c :: rest2, rfl, hat, hb, ?_⟩
      simp only [interpScan]
      rw [if_pos hb]
    · push_neg at hb
      have hl2 : ((b :: c :: rest2).map Anchor.time).getLast? = some tl := by
        rw [List.map_cons, List.map_cons, List.getLast?_cons_cons] at hl
        rw [List.map_cons]
        exact hl
      obtain ⟨l1, lo, hi, l2, hdec, hlo, hhi, hres⟩ :=
        ih b c t tl (le_of_lt hb) hl2 htl
      refine ⟨a :: l1, lo, hi, l2, by rw [List.cons_append, ← hdec], hlo, hhi, ?_⟩
      simp only [interpScan]
      rw [if_neg (not_le.mpr hb)]
      exact hres

/-- Helper: the bracket scan queried exactly at the last stored time returns
the last anchor's state. -/
theorem interpScan_last : ∀ (rest : List Anchor) (a b : Anchor) (tl : ℚ) (n : ℕ)
    (la : Anchor), timeOrdered (a :: b :: rest) → (∀ x ∈ a :: b :: rest, wfDim n x) →
    ((a :: b :: rest).map Anchor.time).getLast? = some tl →
    (a :: b :: rest).getLast? = some la →
    interpScan (a :: b :: rest) tl = Except.ok la.state := by
  intro rest
  induction rest with
  | nil =>
    intro a b tl n la hord hwf hl hla
    simp only [List.map_cons, List.map_nil, List.getLast?_cons_cons,
      List.getLast?_singleton, Option.some.injEq] at hl hla
    subst hl; subst hla
    have hab : a.time < b.time := (List.chain'_cons.mp hord).1
    have ha := hwf a (by simp)
    have hb := hwf b (by simp)
    simp only [interpScan]
    rw [if_pos (le_refl b.time)]
    unfold hermiteVec
    rw [hermiteVecAux_right a.time b.time (ne_of_lt hab) a.state a.diff b.state b.diff
      (ha.2.trans ha.1.symm) (hb.1.trans ha.1.symm) (hb.2.trans ha.1.symm)]
  | cons c rest2 ih =>
    intro a b tl n la hord hwf hl hla
    have htail : timeOrdered (b :: c :: rest2) := (List.chain'_cons.mp hord).2
    have hl2 : ((b :: c :: rest2).map Anchor.time).getLast? = some tl := by
      rw [List.map_cons, List.map_cons, List.getLast?_cons_cons] at hl
      rw [List.map_cons]
      exact hl
    have hla2 : (b :: c :: rest2).getLast? = some la := by
      rw [List.getLast?_cons_cons] at hla
      exact hla
    have hbc : b.time < c.time := (List.chain'_cons.mp htail).1
    have hctl : c.time ≤ tl := mem_time_le_last htail (by simp) hl2
    have hble : ¬ tl ≤ b.time := not_le.mpr (lt_of_lt_of_le hbc hctl)
    simp only [interpScan]
    rw [if_neg hble]
    exact ih b c tl n la htail (fun x hx => hwf x (List.mem_cons_of_mem a hx)) hl2 hla2

/-- Helper: a delayed-state lookup strictly after the last stored time fails
with `FutureQueryError`. -/
theorem lookupState_future {hs : List Anchor} {t tl : ℚ}
    (hl : (hs.map Anchor.time).getLast? = some tl) (ht : tl < t) :
    lookupState hs t = Except.error DDEError.FutureQueryError := by
  simp only [lookupState, hl, ht, if_true]

/-- Helper: an in-range lookup on a store of at least two anchors finds a
bracketing pair and interpolates in it. -/
theorem lookupState_bracket {a b : Anchor} {rest : List Anchor} {t tl : ℚ}
    (hat : a.time ≤ t) (hl : ((a :: b :: rest).map Anchor.time).getLast? = some tl)
    (htl : t ≤ tl) :
    ∃ l1 lo hi l2, a :: b :: rest = l1 ++ lo :: hi :: l2 ∧ lo.time ≤ t ∧ t ≤ hi.time ∧
      lookupState (a :: b :: rest) t = Except.ok (hermiteVec lo hi t) := by
  obtain ⟨l1, lo, hi, l2, hdec, hlo, hhi, hres⟩ :=
    interpScan_bracket rest a b t tl hat hl htl
  have h1 : ¬ tl < t := not_lt.mpr htl
  have h2 : ¬ t < a.time := not_lt.mpr hat
  refine ⟨l1, lo, hi, l2, hdec, hlo, hhi, ?_⟩
  simp only [lookupState, hl, h1, if_false, h2]
  exact hres

/-- Helper: a lookup exactly at the last stored time returns the last
anchor's state. -/
theorem lookupState_at_last {hs : List Anchor} {tl : ℚ} {n : ℕ} {la : Anchor}
    (hord : timeOrdered hs) (hwf : ∀ x ∈ hs, wfDim n x)
    (hl : (hs.map Anchor.time).getLast? = some tl) (hla : hs.getLast? = some la) :
    lookupState hs tl = Except.ok la.state := by
  cases hs with
  | nil => cases hla
  | cons a xs =>
    cases xs with
    | nil =>
      simp only [List.map_cons, List.map_nil, List.getLast?_singleton,
        Option.some.injEq] at hl hla
      subst hl; subst hla
      simp only [lookupState, List.map_cons, List.map_nil, List.getLast?_singleton,
        lt_irrefl, if_false]
    | cons b rest =>
      have hscan := interpScan_last rest a b tl n la hord hwf hl hla
      have hat : a.time ≤ tl := mem_time_le_last hord (by simp) hl
      have h1 : ¬ tl < tl := lt_irrefl tl
      have h2 : ¬ tl < a.time := not_lt.mpr hat
      simp only [lookupState, hl, h1, if_false, h2]
      exact hscan

/-- Helper: the integrate loop is the identity when the target has already
been reached. -/
theorem integrateLoop_stay {doStep : IntState → IntState} {target : ℚ} {fuel : ℕ}
    {s : IntState} (h : target ≤ s.time) :
    integrateLoop doStep target fuel s = s := by
  cases fuel with
  | zero => rfl
  | succ n => simp only [integrateLoop]; rw [if_pos h]

/-- Helper: when every step advances the time by at least δ and the fuel
covers the distance to the target, the integrate loop reaches the target. -/
theorem integrateLoop_reaches {doStep : IntState → IntState} {target δ : ℚ}
    (hstep : ∀ u, u.time + δ ≤ (doStep u).time) :
    ∀ (fuel : ℕ) (s : IntState), target ≤ s.time + (fuel : ℚ) * δ →
    target ≤ (integrateLoop doStep target fuel s).time := by
  intro fuel
  induction fuel with
  | zero => intro s h; simpa [integrateLoop] using h
  | succ n ih =>
    intro s h
    by_cases hts : target ≤ s.time
    · rw [integrateLoop_stay hts]; exact hts
    · simp only [integrateLoop]
      rw [if_neg hts]
      apply ih
      calc target ≤ s.time + ((n : ℚ) + 1) * δ := by push_cast at h ⊢; linarith
        _ = (s.time + δ) + (n : ℚ) * δ := by ring
        _ ≤ (doStep s).time + (n : ℚ) * δ := by linarith [hstep s]

/-- Helper: the integrate loop preserves the Integration State invariant
whenever the stepper does. -/
theorem integrateLoop_inv {doStep : IntState → IntState} {target : ℚ}
    (hinv : ∀ u, IntInv u → IntInv (doStep u)) :
    ∀ (fuel : ℕ) (s : IntState), IntInv s →
    IntInv (integrateLoop doStep target fuel s) := by
  intro fuel
  induction fuel with
  | zero => intro s h; exact h
  | succ n ih =>
    intro s h
    by_cases hts : target ≤ s.time
    · rw [integrateLoop_stay hts]; exact h
    · simp only [integrateLoop]
      rw [if_neg hts]
      exact ih _ (hinv s h)

/-- Helper: when the stepper only appends to the History Store, so does the
whole integrate loop. -/
theorem integrateLoop_append {doStep : IntState → IntState} {target : ℚ}
    (happ : ∀ u, ∃ suffix, (doStep u).history = u.history ++ suffix) :
    ∀ (fuel : ℕ) (s : IntState), ∃ suffix,
    (integrateLoop doStep target fuel s).history = s.history ++ suffix := by
  intro fuel
  induction fuel with
  | zero => intro s; exact ⟨[], by simp [integrateLoop]⟩
  | succ n ih =>
    intro s
    by_cases hts : target ≤ s.time
    · rw [integrateLoop_stay hts]; exact ⟨[], by simp⟩
    · simp only [integrateLoop]
      rw [if_neg hts]
      obtain ⟨s1, h1⟩ := happ s
      obtain ⟨s2, h2⟩ := ih (doStep s)
      exact ⟨s1 ++ s2, by rw [h2, h1, List.append_assoc]⟩

/-- C3: after any sequence of valid History Store operations (past-seeding
appends and accepted-step commits) the stored anchor times are strictly
increasing with no two anchors sharing a time, and an append whose anchor
time is not strictly greater than the last stored time raises
`OrderViolation` instead of modifying the store. -/
theorem historyStore_monotone :
    (∀ pts hs, appendAll [] pts = Except.ok hs → timeOrdered hs) ∧
    (∀ hs (a : Anchor) (tl : ℚ), (hs.map Anchor.time).getLast? = some tl →
      a.time ≤ tl → appendAnchor hs a = Except.error DDEError.OrderViolation) :=
  ⟨fun _ _ h => appendAll_sorted List.chain'_nil h,
   fun _ _ _ hl hle => appendAnchor_stale hl hle⟩

/-- Witness for C3 at the Mackey-Glass seeding: the committed two-anchor
store is strictly time-ordered, and a stale append is rejected. -/
theorem historyStore_monotone_witness :
    timeOrdered [⟨-1, [1], [0]⟩, ⟨0, [1], [0]⟩] ∧
    appendAnchor [⟨-1, [1], [0]⟩, ⟨0, [1], [0]⟩] ⟨0, [2], [0]⟩ =
      Except.error DDEError.OrderViolation :=
  ⟨historyStore_monotone.1 [⟨-1, [1], [0]⟩, ⟨0, [1], [0]⟩]
      [⟨-1, [1], [0]⟩, ⟨0, [1], [0]⟩] (by decide),
   historyStore_monotone.2 [⟨-1, [1], [0]⟩, ⟨0, [1], [0]⟩] ⟨0, [2], [0]⟩ 0
      (by decide) (by decide)⟩

/-- C9: after seeding past anchors and before any forward step, the
integrator's current time (the `t` accessor) equals the time of the youngest
(last-appended) past anchor, so integration automatically starts there. -/
theorem addPastPoints_current_time (n : ℕ) (h0 : ℚ) (pts : List Anchor)
    (s : IntState) (h : addPastPoints n h0 pts = Except.ok s) :
    (pts.map Anchor.time).getLast? = some (currentTime s) := by
  unfold addPastPoints at h
  cases hap : appendAll [] pts with
  | error e => rw [hap] at h; cases h
  | ok hs =>
    rw [hap] at h
    have heq : hs = pts := (appendAll_ok_eq hap).trans (List.nil_append pts)
    subst heq
    cases hl : (hs.map Anchor.time).getLast? with
    | none => simp only [hl] at h; cases h
    | some tl =>
      simp only [hl, Except.ok.injEq] at h
      rw [← h]
      rfl

/-- Witness for C9 at the Mackey-Glass seeding of the example driver. -/
theorem addPastPoints_current_time_witness :
    ([(⟨-1, [1], [0]⟩ : Anchor), ⟨0, [1], [0]⟩].map Anchor.time).getLast? =
      some (currentTime ⟨1, [⟨-1, [1], [0]⟩, ⟨0, [1], [0]⟩], 0, 1⟩) :=
  addPastPoints_current_time 1 1 [⟨-1, [1], [0]⟩, ⟨0, [1], [0]⟩]
    ⟨1, [⟨-1, [1], [0]⟩, ⟨0, [1], [0]⟩], 0, 1⟩ (by decide)

/-- C6: the cubic Hermite interpolant built from two anchors reproduces each
anchor's stored state and stored derivative exactly at that anchor's own
time, and the reconstructed history is C¹-continuous at every anchor: the
segments on either side of a shared anchor agree there in value and in
derivative. -/
theorem hermite_anchor_roundtrip (n : ℕ) (lo hi nxt : Anchor)
    (hlo : wfDim n lo) (hhi : wfDim n hi) (hnxt : wfDim n nxt)
    (hne : lo.time ≠ hi.time) :
    hermiteVec lo hi lo.time = lo.state ∧ hermiteVec lo hi hi.time = hi.state ∧
    hermiteDiffVec lo hi lo.time = lo.diff ∧
    hermiteDiffVec lo hi hi.time = hi.diff ∧
    hermiteVec lo hi hi.time = hermiteVec hi nxt hi.time ∧
    hermiteDiffVec lo hi hi.time = hermiteDiffVec hi nxt hi.time := by
  have e1 : lo.diff.length = lo.state.length := hlo.2.trans hlo.1.symm
  have e2 : hi.state.length = lo.state.length := hhi.1.trans hlo.1.symm
  have e3 : hi.diff.length = lo.state.length := hhi.2.trans hlo.1.symm
  have f1 : hi.diff.length = hi.state.length := hhi.2.trans hhi.1.symm
  have f2 : nxt.state.length = hi.state.length := hnxt.1.trans hhi.1.symm
  have f3 : nxt.diff.length = hi.state.length := hnxt.2.trans hhi.1.symm
  have hv1 : hermiteVec lo hi lo.time = lo.state := by
    unfold hermiteVec
    exact hermiteVecAux_left lo.time hi.time lo.state lo.diff hi.state hi.diff e1 e2 e3
  have hv2 : hermiteVec lo hi hi.time = hi.state := by
    unfold hermiteVec
    exact hermiteVecAux_right lo.time hi.time hne lo.state lo.diff hi.state hi.diff
      e1 e2 e3
  have hd1 : hermiteDiffVec lo hi lo.time = lo.diff := by
    unfold hermiteDiffVec
    exact hermiteDiffVecAux_left lo.time hi.time lo.state lo.diff hi.state hi.diff
      e1 e2 e3
  have hd2 : hermiteDiffVec lo hi hi.time = hi.diff := by
    unfold hermiteDiffVec
    exact hermiteDiffVecAux_right lo.time hi.time hne lo.state lo.diff hi.state hi.diff
      e1 e2 e3
  have hv3 : hermiteVec hi nxt hi.time = hi.state := by
    unfold hermiteVec
    exact hermiteVecAux_left hi.time nxt.time hi.state hi.diff nxt.state nxt.diff
      f1 f2 f3
  have hd3 : hermiteDiffVec hi nxt hi.time = hi.diff := by
    unfold hermiteDiffVec
    exact hermiteDiffVecAux_left hi.time nxt.time hi.state hi.diff nxt.state nxt.diff
      f1 f2 f3
  exact ⟨hv1, hv2, hd1, hd2, hv2.trans hv3.symm, hd2.trans hd3.symm⟩

/-- Witness for C6 on three concrete anchors. -/
theorem hermite_anchor_roundtrip_witness :
    hermiteVec ⟨0, [1], [2]⟩ ⟨1, [3], [4]⟩ 0 = [1] ∧
    hermiteVec ⟨0, [1], [2]⟩ ⟨1, [3], [4]⟩ 1 = [3] ∧
    hermiteDiffVec ⟨0, [1], [2]⟩ ⟨1, [3], [4]⟩ 0 = [2] ∧
    hermiteDiffVec ⟨0, [1], [2]⟩ ⟨1, [3], [4]⟩ 1 = [4] ∧
    hermiteVec ⟨0, [1], [2]⟩ ⟨1, [3], [4]⟩ 1 = hermiteVec ⟨1, [3], [4]⟩ ⟨2, [5], [6]⟩ 1 ∧
    hermiteDiffVec ⟨0, [1], [2]⟩ ⟨1, [3], [4]⟩ 1 =
      hermiteDiffVec ⟨1, [3], [4]⟩ ⟨2, [5], [6]⟩ 1 :=
  hermite_anchor_roundtrip 1 ⟨0, [1], [2]⟩ ⟨1, [3], [4]⟩ ⟨2, [5], [6]⟩
    (by decide) (by decide) (by decide) (by decide)

/-- C7: a delayed-state lookup at a query time strictly greater than the last
anchor's time (strictly ahead of the current integration time) fails with
`FutureQueryError` and never returns an extrapolated value. -/
theorem lookup_future_query (hs : List Anchor) (t tl : ℚ)
    (hl : (hs.map Anchor.time).getLast? = some tl) (ht : tl < t) :
    lookupState hs t = Except.error DDEError.FutureQueryError :=
  lookupState_future hl ht

/-- Witness for C7: a lookup one time unit beyond the only stored anchor. -/
theorem lookup_future_query_witness :
    lookupState [⟨0, [1], [0]⟩] 1 = Except.error DDEError.FutureQueryError :=
  lookup_future_query [⟨0, [1], [0]⟩] 1 0 (by decide) (by decide)

/-- C8: a lookup before the earliest anchor returns the earliest anchor's
state by constant extrapolation when the store holds a single anchor, and
Hermite extrapolation from the two earliest anchors otherwise; seeding two
anchors with equal state and zero derivative makes every earlier lookup
return that constant state regardless of the anchors' spacing. -/
theorem lookup_before_first (a b : Anchor) (rest : List Anchor) (t tl : ℚ) :
    (t ≤ a.time → lookupState [a] t = Except.ok a.state) ∧
    (timeOrdered (a :: b :: rest) →
      ((a :: b :: rest).map Anchor.time).getLast? = some tl → t < a.time →
      lookupState (a :: b :: rest) t = Except.ok (hermiteVec a b t)) ∧
    (timeOrdered (a :: b :: rest) →
      ((a :: b :: rest).map Anchor.time).getLast? = some tl → t < a.time →
      b.state = a.state → a.diff = List.replicate a.state.length 0 →
      b.diff = a.diff →
      lookupState (a :: b :: rest) t = Except.ok a.state) := by
  have hmain : timeOrdered (a :: b :: rest) →
      ((a :: b :: rest).map Anchor.time).getLast? = some tl → t < a.time →
      lookupState (a :: b :: rest) t = Except.ok (hermiteVec a b t) := by
    intro hord hl ht
    have hat : a.time ≤ tl := mem_time_le_last hord (by simp) hl
    have h1 : ¬ tl < t := not_lt.mpr (le_trans (le_of_lt ht) hat)
    simp only [lookupState, hl, h1, if_false, ht, if_true]
  refine ⟨?_, hmain, ?_⟩
  · intro ht
    have h1 : ¬ a.time < t := not_lt.mpr ht
    simp only [lookupState, List.map_cons, List.map_nil, List.getLast?_singleton,
      h1, if_false]
  · intro hord hl ht hba hda hdb
    rw [hmain hord hl ht]
    unfold hermiteVec
    rw [hba, hdb, hda, hermiteVecAux_const]

/-- Witness for C8 at the Mackey-Glass constant past (two equal anchors with
zero derivative): lookups before both anchors return the constant state. -/
theorem lookup_before_first_witness :
    lookupState [⟨-1, [1], [0]⟩] (-5) = Except.ok [1] ∧
    lookupState [⟨-1, [1], [0]⟩, ⟨0, [1], [0]⟩] (-5) = Except.ok [1] :=
  ⟨(lookup_before_first ⟨-1, [1], [0]⟩ ⟨0, [1], [0]⟩ [] (-5) 0).1 (by decide),
   (lookup_before_first ⟨-1, [1], [0]⟩ ⟨0, [1], [0]⟩ [] (-5) 0).2.2 (by decide)
      (by decide) (by decide) (by decide) (by decide) (by decide)⟩

/-- C4: a trial step is accepted exactly when the error norm
max_i |est_i| / (atol + rtol * max(|y_i|, |y_i+proposed|)) is at most 1; on
acceptance one anchor carrying the higher-order solution and its derivative
is committed at time+h, and the next step size is
h * min(max_growth, safety * norm^(-1/order)). -/
theorem stepController_accept (cfg : StepConfig) (hist : List Anchor)
    (cur : Anchor) (h : ℚ) (td : TrialData) :
    ((controllerStep cfg hist cur h td).accepted = true ↔
      errorNorm cfg.atol cfg.rtol td.errEst cur.state td.ySol ≤ 1) ∧
    (errorNorm cfg.atol cfg.rtol td.errEst cur.state td.ySol ≤ 1 →
      (controllerStep cfg hist cur h td).history =
        hist ++ [{ time := cur.time + h, state := td.ySol, diff := td.yDiff }] ∧
      (controllerStep cfg hist cur h td).time = cur.time + h ∧
      nextStepSize cfg h (errorNorm cfg.atol cfg.rtol td.errEst cur.state td.ySol) =
        (h : ℝ) * min (cfg.maxGrowth : ℝ) ((cfg.safety : ℝ) *
          ((errorNorm cfg.atol cfg.rtol td.errEst cur.state td.ySol : ℚ) : ℝ) ^
            (-(1 : ℝ) / (cfg.order : ℝ)))) := by
  by_cases hn : errorNorm cfg.atol cfg.rtol td.errEst cur.state td.ySol ≤ 1
  · refine ⟨by simp [controllerStep, hn], fun _ => ⟨?_, ?_, ?_⟩⟩
    · simp [controllerStep, hn]
    · simp [controllerStep, hn]
    · simp [nextStepSize, hn]
  · exact ⟨by simp [controllerStep, hn], fun hc => absurd hc hn⟩

/-- Witness for C4 on a concrete accepted step with error norm 1. -/
theorem stepController_accept_witness :
    (controllerStep ⟨1, 0, 1/2, 5, 1/10, 5⟩ [] ⟨0, [1], [0]⟩ 1 ⟨[2], [3], [1]⟩).accepted
        = true ∧
    (controllerStep ⟨1, 0, 1/2, 5, 1/10, 5⟩ [] ⟨0, [1], [0]⟩ 1 ⟨[2], [3], [1]⟩).history
        = [] ++ [{ time := 0 + 1, state := [2], diff := [3] }] :=
  ⟨(stepController_accept ⟨1, 0, 1/2, 5, 1/10, 5⟩ [] ⟨0, [1], [0]⟩ 1
      ⟨[2], [3], [1]⟩).1.mpr (by norm_num [errorNorm, max_le_iff]),
   ((stepController_accept ⟨1, 0, 1/2, 5, 1/10, 5⟩ [] ⟨0, [1], [0]⟩ 1
      ⟨[2], [3], [1]⟩).2 (by norm_num [errorNorm, max_le_iff])).1⟩

/-- C5: every accepted step appends exactly one anchor to the History Store;
every rejected step leaves the History Store and the current time unchanged;
and rejection is not surfaced to the caller as an error (the controller
always returns an ordinary outcome). -/
theorem stepController_frame (cfg : StepConfig) (hist : List Anchor)
    (cur : Anchor) (h : ℚ) (td : TrialData) :
    ((controllerStep cfg hist cur h td).accepted = true →
      (controllerStep cfg hist cur h td).history =
        hist ++ [{ time := cur.time + h, state := td.ySol, diff := td.yDiff }] ∧
      (controllerStep cfg hist cur h td).history.length = hist.length + 1) ∧
    ((controllerStep cfg hist cur h td).accepted = false →
      (controllerStep cfg hist cur h td).history = hist ∧
      (controllerStep cfg hist cur h td).time = cur.time) ∧
    controllerStepE cfg hist cur h td = Except.ok (controllerStep cfg hist cur h td) := by
  refine ⟨?_, ?_, rfl⟩ <;>
    by_cases hn : errorNorm cfg.atol cfg.rtol td.errEst cur.state td.ySol ≤ 1 <;>
    simp [controllerStep, hn]

/-- Witness for C5 on a concrete rejected step with error norm 2. -/
theorem stepController_frame_witness :
    (controllerStep ⟨1/2, 0, 1/2, 5, 1/10, 5⟩ [⟨0, [1], [0]⟩] ⟨0, [1], [0]⟩ 1
        ⟨[2], [3], [-1]⟩).history = [⟨0, [1], [0]⟩] ∧
    (controllerStep ⟨1/2, 0, 1/2, 5, 1/10, 5⟩ [⟨0, [1], [0]⟩] ⟨0, [1], [0]⟩ 1
        ⟨[2], [3], [-1]⟩).time = 0 :=
  (stepController_frame ⟨1/2, 0, 1/2, 5, 1/10, 5⟩ [⟨0, [1], [0]⟩] ⟨0, [1], [0]⟩ 1
      ⟨[2], [3], [-1]⟩).2.1 (by
    have hn : ¬ errorNorm ((1 : ℚ)/2) 0 [-1] [1] [2] ≤ 1 := by
      norm_num [errorNorm, max_le_iff]
    simp only [controllerStep]
    rw [if_neg hn])

/-- C2: integrating to a target time strictly before the current time fails
with `BackwardIntegrationError` and leaves the entire Integration State (the
current time, the proposed step size and the History Store) unchanged. -/
theorem integrate_backward (doStep : IntState → IntState) (fuel : ℕ)
    (s : IntState) (target : ℚ) (h : target < s.time) :
    integrate doStep fuel s target =
      (Except.error DDEError.BackwardIntegrationError, s) := by
  simp only [integrate, h, if_true]

/-- Witness for C2: integrating the seeded demonstration state backwards. -/
theorem integrate_backward_witness :
    integrate demoStep 0 demoState (-1) =
      (Except.error DDEError.BackwardIntegrationError, demoState) :=
  integrate_backward demoStep 0 demoState (-1) (by decide)

/-- C10: integrating to a target time exactly equal to the current time
succeeds, performs no forward step (the Integration State is returned
unchanged), and returns the state at the current time, namely the last
anchor's stored state. -/
theorem integrate_at_current (doStep : IntState → IntState) (fuel : ℕ)
    (s : IntState) (la : Anchor) (hinv : IntInv s)
    (hla : s.history.getLast? = some la) :
    integrate doStep fuel s s.time = (Except.ok la.state, s) := by
  obtain ⟨hne, hord, hwf, hl⟩ := hinv
  simp only [integrate]
  rw [if_neg (lt_irrefl s.time), integrateLoop_stay (le_refl s.time),
    lookupState_at_last hord hwf hl hla]

/-- Witness for C10: integrating the seeded demonstration state to its own
current time returns the youngest anchor's state. -/
theorem integrate_at_current_witness :
    integrate demoStep 5 demoState 0 = (Except.ok [1], demoState) :=
  integrate_at_current demoStep 5 demoState ⟨0, [1], [0]⟩ (by decide) (by decide)

/-- Helper: the demonstration stepper advances the time by exactly one unit. -/
theorem demoStep_time (u : IntState) : u.time + 1 ≤ (demoStep u).time :=
  le_refl (u.time + 1)

/-- Helper: the demonstration stepper only appends to the History Store. -/
theorem demoStep_append (u : IntState) :
    ∃ suffix, (demoStep u).history = u.history ++ suffix :=
  ⟨_, rfl⟩

/-- Helper: the demonstration stepper preserves the Integration State
invariant. -/
theorem demoStep_inv (u : IntState) (h : IntInv u) : IntInv (demoStep u) := by
  obtain ⟨hne, hord, hwf, hl⟩ := h
  obtain ⟨la, hla, hlat⟩ : ∃ la, u.history.getLast? = some la ∧ la.time = u.time := by
    rw [List.getLast?_map] at hl
    cases hget : u.history.getLast? <;> rw [hget] at hl <;> simp at hl
    exact ⟨_, rfl, hl⟩
  refine ⟨by simp [demoStep], ?_, ?_, ?_⟩
  · refine List.Chain'.append hord (List.chain'_singleton _) ?_
    intro x hx y hy
    rw [hla] at hx
    simp only [Option.mem_def, Option.some.injEq] at hx
    simp only [List.head?_cons, Option.mem_def, Option.some.injEq] at hy
    subst hx; subst hy
    simp only [hlat]
    exact lt_add_one u.time
  · intro a ha
    simp only [demoStep] at ha
    rcases List.mem_append.mp ha with h1 | h2
    · exact hwf a h1
    · simp only [List.mem_singleton] at h2
      subst h2
      constructor <;> simp [demoStep]
  · simp [demoStep]

/-- C1: for every target time at least the current integration time (on a
store of at least two anchors, stepped by any stepper that accepts steps
advancing time by at least δ, appends to the History Store and preserves the
invariant), `integrate` loops until the integration time reaches the target
and returns the state obtained by Hermite interpolation exactly at the
target time from the two anchors bracketing it, not the last anchor's
state. -/
theorem integrate_interpolates (doStep : IntState → IntState) (fuel : ℕ)
    (s : IntState) (target δ : ℚ) (hstate : IntInv s)
    (hstep : ∀ u, u.time + δ ≤ (doStep u).time)
    (hinv : ∀ u, IntInv u → IntInv (doStep u))
    (happ : ∀ u, ∃ suffix, (doStep u).history = u.history ++ suffix)
    (hlen : 2 ≤ s.history.length) (ht : s.time ≤ target)
    (hfuel : target ≤ s.time + (fuel : ℚ) * δ) :
    ∃ v s2 l1 lo hi l2, integrate doStep fuel s target = (Except.ok v, s2) ∧
      target ≤ s2.time ∧ s2.history = l1 ++ lo :: hi :: l2 ∧
      lo.time ≤ target ∧ target ≤ hi.time ∧ v = hermiteVec lo hi target := by
  have hreach : target ≤ (integrateLoop doStep target fuel s).time :=
    integrateLoop_reaches hstep fuel s hfuel
  have hinv2 : IntInv (integrateLoop doStep target fuel s) :=
    integrateLoop_inv hinv fuel s hstate
  obtain ⟨suf, hsuf⟩ := @integrateLoop_append doStep target happ fuel s
  obtain ⟨a, b, rest, hdecomp⟩ : ∃ a b rest, s.history = a :: b :: rest := by
    cases hh : s.history with
    | nil => rw [hh] at hlen; simp at hlen
    | cons a xs =>
      cases xs with
      | nil => rw [hh] at hlen; simp at hlen
      | cons b rest => exact ⟨a, b, rest, rfl⟩
  obtain ⟨rest2, hhist2⟩ :
      ∃ rest2, (integrateLoop doStep target fuel s).history = a :: b :: rest2 := by
    rw [hsuf, hdecomp]
    exact ⟨rest ++ suf, by simp⟩
  obtain ⟨hne2, hord2, hwf2, hl2⟩ := hinv2
  have hastime : a.time ≤ s.time :=
    mem_time_le_last hstate.2.1 (by rw [hdecomp]; simp) hstate.2.2.2
  rw [hhist2] at hl2
  obtain ⟨l1, lo, hi, l2, hdec, hlo, hhi, hres⟩ :=
    lookupState_bracket (le_trans hastime ht) hl2 hreach
  refine ⟨hermiteVec lo hi target, integrateLoop doStep target fuel s, l1, lo, hi, l2,
    ?_, hreach, by rw [hhist2, hdec], hlo, hhi, rfl⟩
  simp only [integrate]
  rw [if_neg (not_lt.mpr ht), hhist2, hres]

/-- Witness for C1: integrating the seeded demonstration state to time 3/2,
strictly between the anchors that the demonstration stepper commits at times
1 and 2. -/
theorem integrate_interpolates_witness :
    ∃ v s2 l1 lo hi l2, integrate demoStep 3 demoState (3/2) = (Except.ok v, s2) ∧
      (3/2 : ℚ) ≤ s2.time ∧ s2.history = l1 ++ lo :: hi :: l2 ∧
      lo.time ≤ 3/2 ∧ (3/2 : ℚ) ≤ hi.time ∧ v = hermiteVec lo hi (3/2) :=
  integrate_interpolates demoStep 3 demoState (3/2) 1 (by decide) demoStep_time
    demoStep_inv demoStep_append (by decide) (by norm_num [demoState])
    (by norm_num [demoState])
